import Mathlib

/-!
Verification of the phoneme-analysis toolbox (`src/text/phoneme_analysis.py`).

The Python module computes phoneme-frequency statistics over text passages:
`Passage.__clean_text` normalizes raw text, `Passage.__to_phonemes` tokenizes
it and looks each token up through the process-wide `phoneme_cache` backed by
an external pronunciation dictionary (recording out-of-vocabulary words),
`Passage.__get_phoneme_stats` derives total and position-bucketed phoneme
counts, `Passage.__check_counts` validates them, and `Corpus.export_oovs`
writes the aggregated OOV list.  This file gives a shallow embedding of those
functions over `List Char` texts and association-list dictionaries (Python
`dict`s preserve insertion order and append new keys at the end, which the
association-list operations below reproduce), and proves the specified
properties about them.
-/

namespace PhonemeAnalysis

/-! ### Association lists: the embedding of Python `dict` -/

/-- Lookup in an association list: the value at the first matching key,
mirroring Python `d[k]` / `k in d`. -/
def alookup {κ α : Type} [DecidableEq κ] (k : κ) : List (κ × α) → Option α
  | [] => none
  | (k', v) :: rest => if k' = k then some v else alookup k rest

/-- The key list of an association list (Python `d.keys()`). -/
def keysOf {κ α : Type} (l : List (κ × α)) : List κ := l.map Prod.fst

theorem alookup_eq_none_iff {κ α : Type} [DecidableEq κ] (k : κ) (l : List (κ × α)) :
    alookup k l = none ↔ k ∉ keysOf l := by
  induction l with
  | nil => simp [alookup, keysOf]
  | cons hd tl ih =>
    obtain ⟨k', v⟩ := hd
    by_cases h : k' = k
    · subst h
      simp [alookup, keysOf]
    · simp only [alookup, if_neg h, keysOf, List.map_cons, List.mem_cons, ih, keysOf]
      constructor
      · intro hk
        rintro (rfl | hm)
        · exact h rfl
        · exact hk hm
      · intro hk hm
        exact hk (Or.inr hm)

theorem alookup_isSome_iff {κ α : Type} [DecidableEq κ] (k : κ) (l : List (κ × α)) :
    (alookup k l).isSome ↔ k ∈ keysOf l := by
  cases h : alookup k l with
  | none =>
    simp only [Option.isSome_none, Bool.false_eq_true, false_iff]
    exact (alookup_eq_none_iff k l).mp h
  | some v =>
    simp only [Option.isSome_some, true_iff]
    by_contra hk
    rw [(alookup_eq_none_iff k l).mpr hk] at h
    exact Option.noConfusion h

theorem mem_of_alookup_eq_some {κ α : Type} [DecidableEq κ] {k : κ} {v : α}
    {l : List (κ × α)} (h : alookup k l = some v) : (k, v) ∈ l := by
  induction l with
  | nil => simp [alookup] at h
  | cons hd tl ih =>
    obtain ⟨k', v'⟩ := hd
    by_cases hk : k' = k
    · subst hk
      simp [alookup] at h
      simp [h]
    · simp [alookup, hk] at h
      exact List.mem_cons_of_mem _ (ih h)

theorem alookup_eq_some_of_mem {κ α : Type} [DecidableEq κ] {k : κ} {v : α}
    {l : List (κ × α)} (hnd : (keysOf l).Nodup) (h : (k, v) ∈ l) :
    alookup k l = some v := by
  induction l with
  | nil => simp at h
  | cons hd tl ih =>
    obtain ⟨k', v'⟩ := hd
    have hnd' : k' ∉ keysOf tl ∧ (keysOf tl).Nodup := by
      simpa [keysOf] using hnd
    rcases List.mem_cons.mp h with h1 | h1
    · cases h1
      simp [alookup]
    · have hk : k' ≠ k := by
        intro he
        subst he
        exact hnd'.1 (by simpa [keysOf] using List.mem_map_of_mem Prod.fst h1)
      simp only [alookup, if_neg hk]
      exact ih hnd'.2 h1

theorem alookup_append_of_some {κ α : Type} [DecidableEq κ] {k : κ} {v : α}
    {l₁ : List (κ × α)} (l₂ : List (κ × α)) (h : alookup k l₁ = some v) :
    alookup k (l₁ ++ l₂) = some v := by
  induction l₁ with
  | nil => simp [alookup] at h
  | cons hd tl ih =>
    obtain ⟨k', v'⟩ := hd
    by_cases hk : k' = k <;> simp [alookup, hk] at h ⊢ <;> simp_all [ih]

theorem alookup_append_of_none {κ α : Type} [DecidableEq κ] {k : κ}
    {l₁ : List (κ × α)} (l₂ : List (κ × α)) (h : alookup k l₁ = none) :
    alookup k (l₁ ++ l₂) = alookup k l₂ := by
  induction l₁ with
  | nil => simp
  | cons hd tl ih =>
    obtain ⟨k', v'⟩ := hd
    by_cases hk : k' = k <;> simp [alookup, hk] at h ⊢ <;> simp_all [ih]

theorem alookup_perm {κ α : Type} [DecidableEq κ] (k : κ) {l l' : List (κ × α)}
    (hp : l.Perm l') (hnd : (keysOf l).Nodup) :
    alookup k l = alookup k l' := by
  have hnd' : (keysOf l').Nodup := (hp.map Prod.fst).nodup_iff.mp hnd
  cases h : alookup k l with
  | some v =>
    exact (alookup_eq_some_of_mem hnd' (hp.mem_iff.mp (mem_of_alookup_eq_some h))).symm
  | none =>
    have : k ∉ keysOf l' := fun hm =>
      (alookup_eq_none_iff k l).mp h ((hp.map Prod.fst).mem_iff.mpr hm)
    exact ((alookup_eq_none_iff k l').mpr this).symm

/-! ### Positional phoneme counting (`Passage.__get_phoneme_stats`) -/

/-- A position-count vector `[initial, medial, final]`. -/
abbrev Vec3 := Nat × Nat × Nat

/-- A word is the list of its characters (a token of the normalized text). -/
abbrev Word := List Char

/-- The two dictionaries built by `__get_phoneme_stats`:
`phoneme_count` and `phoneme_count_by_pos`. -/
structure Stats where
  count : List (String × Nat)
  byPos : List (String × Vec3)
deriving DecidableEq

/-- `sum(v)` for a 3-element position vector. -/
def sumVec : Vec3 → Nat
  | (a, b, c) => a + b + c

/-- `re.sub(r'\d$', '', p)`: drop a single trailing digit from a phoneme
symbol, if present. -/
def stripStress (p : String) : String :=
  match p.data.getLast? with
  | some c => if c.isDigit then String.mk p.data.dropLast else p
  | none => p

/-- The symbol actually counted for an occurrence of `p`: stress-stripped
when `ignore_stress` is set (lines 183-184 of the source). -/
def effSym (ignoreStress : Bool) (p : String) : String :=
  if ignoreStress then stripStress p else p

/-- `if p in phoneme_count: phoneme_count[p] += 1 else: phoneme_count[p] = 1`,
with a new key appended at the end as Python dicts do. -/
def dictIncr : List (String × Nat) → String → List (String × Nat)
  | [], p => [(p, 1)]
  | (k, v) :: rest, p =>
    if k = p then (k, v + 1) :: rest else (k, v) :: dictIncr rest p

/-- `if p not in phoneme_count_by_pos: phoneme_count_by_pos[p] = [0, 0, 0]`. -/
def posEnsure : List (String × Vec3) → String → List (String × Vec3)
  | [], p => [(p, (0, 0, 0))]
  | (k, v) :: rest, p =>
    if k = p then (k, v) :: rest else (k, v) :: posEnsure rest p

/-- Add 1 to coordinate `i` of a position vector.  The source only ever uses
`i` in `{0, 1, 2}` (a larger index would be a Python `IndexError`); any other
`i` leaves the vector unchanged here. -/
def bumpVec (i : Nat) : Vec3 → Vec3
  | (a, b, c) =>
    if i = 0 then (a + 1, b, c)
    else if i = 1 then (a, b + 1, c)
    else if i = 2 then (a, b, c + 1)
    else (a, b, c)

/-- `phoneme_count_by_pos[p][pos_idx] += 1`.  The key is always present when
the source reaches this statement (a missing key would be a Python
`KeyError`); a missing key leaves the list unchanged here. -/
def posIncr : List (String × Vec3) → String → Nat → List (String × Vec3)
  | [], _, _ => []
  | (k, v) :: rest, p, i =>
    if k = p then (k, bumpVec i v) :: rest else (k, v) :: posIncr rest p i

/-- The position index computed by lines 194-200 of the source:
`if i > 0: (2 if i == n_ph-1 else 1) else: 0`. -/
def posIdx (nPh i : Nat) : Nat :=
  if 0 < i then (if i = nPh - 1 then 2 else 1) else 0

/-- One iteration of the inner loop of `__get_phoneme_stats` for the symbol
`p` at index `i` of a variant of length `nPh`. -/
def stepSymbol (ignoreStress : Bool) (nPh i : Nat) (p : String) (s : Stats) : Stats :=
  let q := effSym ignoreStress p
  let cnt := dictIncr s.count q
  let pos := posEnsure s.byPos q
  let pos := if 2 ≤ nPh then posIncr pos q (posIdx nPh i) else pos
  ⟨cnt, pos⟩

/-- The inner loop `for i, p in enumerate(phonemes)` over the remaining
symbols `ps`, the next index being `i`. -/
def countPhonemes (ignoreStress : Bool) (nPh : Nat) : Nat → List String → Stats → Stats
  | _, [], s => s
  | i, p :: ps, s => countPhonemes ignoreStress nPh (i + 1) ps (stepSymbol ignoreStress nPh i p s)

/-- Processing of one `(word, phonemes)` pair of the transcription
(`n_ph = len(phonemes)`). -/
def stepWord (ignoreStress : Bool) (phonemes : List String) (s : Stats) : Stats :=
  countPhonemes ignoreStress phonemes.length 0 phonemes s

/-- Lexicographic code-point comparison of character lists: the order Python
`sorted` uses on strings. -/
def charListLt : List Char → List Char → Bool
  | [], [] => false
  | [], _ :: _ => true
  | _ :: _, [] => false
  | c :: cs, d :: ds =>
    if c.toNat < d.toNat then true
    else if d.toNat < c.toNat then false
    else charListLt cs ds

/-- Python's `str` comparison, by code points. -/
def strLt (a b : String) : Bool := charListLt a.data b.data

/-- Insertion step of the key-ordered sort modelling Python
`dict(sorted(d.items()))` (keys are unique, so sorting the items sorts by
key). -/
def insertByKey {α : Type} (x : String × α) : List (String × α) → List (String × α)
  | [] => [x]
  | y :: ys => if strLt y.1 x.1 then y :: insertByKey x ys else x :: y :: ys

/-- Key-ordered sort of an association list (`dict(sorted(d.items()))`). -/
def sortByKey {α : Type} : List (String × α) → List (String × α)
  | [] => []
  | x :: xs => insertByKey x (sortByKey xs)

/-- `Passage.__get_phoneme_stats`: fold the counting loop over the
transcription, then sort both dictionaries by key. -/
def getPhonemeStats (ignoreStress : Bool) (trans : List (Word × List String)) : Stats :=
  let s := trans.foldl (fun acc wp => stepWord ignoreStress wp.2 acc) ⟨[], []⟩
  ⟨sortByKey s.count, sortByKey s.byPos⟩

/-- Total count recorded for `k` (0 when `k` is absent). -/
def cntAt (d : List (String × Nat)) (k : String) : Nat := (alookup k d).getD 0

/-- Position vector recorded for `k` (`[0,0,0]` when `k` is absent; in
`__check_counts` a truly absent key would be a Python `KeyError`, but the key
sets coincide, see `phoneme_stats_key_sets_agree`). -/
def vecAt (d : List (String × Vec3)) (k : String) : Vec3 :=
  (alookup k d).getD (0, 0, 0)

/-- `Passage.__check_counts`: `all(phoneme_count[k] >= sum(phoneme_count_by_pos[k])
for k in phoneme_count)`; `False` means the `ValueError` is raised. -/
def checkCounts (s : Stats) : Bool :=
  s.count.all fun kv => sumVec (vecAt s.byPos kv.1) ≤ kv.2

/-! ### Lookup and key-set lemmas for the counting operations -/

theorem alookup_dictIncr_self (d : List (String × Nat)) (p : String) :
    alookup p (dictIncr d p) = some ((alookup p d).getD 0 + 1) := by
  induction d with
  | nil => simp [dictIncr, alookup]
  | cons hd tl ih =>
    obtain ⟨k, v⟩ := hd
    by_cases h : k = p
    · subst h
      simp [dictIncr, alookup]
    · simp [dictIncr, alookup, h, ih]

theorem alookup_dictIncr_ne (d : List (String × Nat)) {p k : String} (h : k ≠ p) :
    alookup k (dictIncr d p) = alookup k d := by
  have hpk : p ≠ k := fun he => h he.symm
  induction d with
  | nil => simp [dictIncr, alookup, hpk]
  | cons hd tl ih =>
    obtain ⟨k', v⟩ := hd
    by_cases h' : k' = p
    · subst h'
      simp [dictIncr, alookup, hpk]
    · simp only [dictIncr, if_neg h', alookup]
      by_cases h'' : k' = k
      · simp [h'']
      · simp [h'', ih]

theorem mem_keys_dictIncr (d : List (String × Nat)) (p k : String) :
    k ∈ keysOf (dictIncr d p) ↔ k ∈ keysOf d ∨ k = p := by
  induction d with
  | nil => simp [dictIncr, keysOf, eq_comm]
  | cons hd tl ih =>
    obtain ⟨k', v⟩ := hd
    by_cases h : k' = p
    · subst h
      simp [dictIncr, keysOf, List.mem_cons]
      tauto
    · simp [dictIncr, keysOf, h, List.mem_cons] at ih ⊢
      tauto

theorem nodup_keys_dictIncr {d : List (String × Nat)} (p : String)
    (h : (keysOf d).Nodup) : (keysOf (dictIncr d p)).Nodup := by
  induction d with
  | nil => simp [dictIncr, keysOf]
  | cons hd tl ih =>
    obtain ⟨k, v⟩ := hd
    have h1 : k ∉ keysOf tl ∧ (keysOf tl).Nodup := by simpa [keysOf] using h
    by_cases hk : k = p
    · subst hk
      simpa [dictIncr, keysOf] using h1
    · have h2 : k ∉ keysOf (dictIncr tl p) := by
        rw [mem_keys_dictIncr]
        rintro (hm | rfl)
        · exact h1.1 hm
        · exact hk rfl
      simp only [dictIncr, if_neg hk, keysOf, List.map_cons, List.nodup_cons]
      exact ⟨h2, ih h1.2⟩

theorem alookup_posEnsure_self (d : List (String × Vec3)) (p : String) :
    alookup p (posEnsure d p) = some ((alookup p d).getD (0, 0, 0)) := by
  induction d with
  | nil => simp [posEnsure, alookup]
  | cons hd tl ih =>
    obtain ⟨k, v⟩ := hd
    by_cases h : k = p
    · subst h
      simp [posEnsure, alookup]
    · simp [posEnsure, alookup, h, ih]

theorem alookup_posEnsure_ne (d : List (String × Vec3)) {p k : String} (h : k ≠ p) :
    alookup k (posEnsure d p) = alookup k d := by
  have hpk : p ≠ k := fun he => h he.symm
  induction d with
  | nil => simp [posEnsure, alookup, hpk]
  | cons hd tl ih =>
    obtain ⟨k', v⟩ := hd
    by_cases h' : k' = p
    · subst h'
      simp [posEnsure, alookup, hpk]
    · simp only [posEnsure, if_neg h', alookup]
      by_cases h'' : k' = k
      · simp [h'']
      · simp [h'', ih]

theorem mem_keys_posEnsure (d : List (String × Vec3)) (p k : String) :
    k ∈ keysOf (posEnsure d p) ↔ k ∈ keysOf d ∨ k = p := by
  induction d with
  | nil => simp [posEnsure, keysOf, eq_comm]
  | cons hd tl ih =>
    obtain ⟨k', v⟩ := hd
    by_cases h : k' = p
    · subst h
      have he : posEnsure ((k', v) :: tl) k' = (k', v) :: tl := by
        simp [posEnsure]
      rw [he]
      constructor
      · exact Or.inl
      · rintro (hm | rfl)
        · exact hm
        · simp [keysOf]
    · simp only [posEnsure, if_neg h, keysOf, List.map_cons, List.mem_cons]
      rw [show List.map Prod.fst (posEnsure tl p) = keysOf (posEnsure tl p) from rfl,
        show List.map (Prod.fst (β := Vec3)) tl = keysOf tl from rfl] at *
      rw [ih]
      tauto

theorem nodup_keys_posEnsure {d : List (String × Vec3)} (p : String)
    (h : (keysOf d).Nodup) : (keysOf (posEnsure d p)).Nodup := by
  induction d with
  | nil => simp [posEnsure, keysOf]
  | cons hd tl ih =>
    obtain ⟨k, v⟩ := hd
    have h1 : k ∉ keysOf tl ∧ (keysOf tl).Nodup := by simpa [keysOf] using h
    by_cases hk : k = p
    · subst hk
      simpa [posEnsure, keysOf] using h
    · have h2 : k ∉ keysOf (posEnsure tl p) := by
        rw [mem_keys_posEnsure]
        rintro (hm | rfl)
        · exact h1.1 hm
        · exact hk rfl
      simp only [posEnsure, if_neg hk, keysOf, List.map_cons, List.nodup_cons]
      exact ⟨h2, ih h1.2⟩

theorem alookup_posIncr_self (d : List (String × Vec3)) (p : String) (i : Nat) :
    alookup p (posIncr d p i) = (alookup p d).map (bumpVec i) := by
  induction d with
  | nil => simp [posIncr, alookup]
  | cons hd tl ih =>
    obtain ⟨k, v⟩ := hd
    by_cases h : k = p
    · subst h
      simp [posIncr, alookup]
    · simp [posIncr, alookup, h, ih]

theorem alookup_posIncr_ne (d : List (String × Vec3)) {p k : String} (i : Nat)
    (h : k ≠ p) : alookup k (posIncr d p i) = alookup k d := by
  have hpk : p ≠ k := fun he => h he.symm
  induction d with
  | nil => simp [posIncr, alookup]
  | cons hd tl ih =>
    obtain ⟨k', v⟩ := hd
    by_cases h' : k' = p
    · subst h'
      simp [posIncr, alookup, hpk]
    · simp only [posIncr, if_neg h', alookup]
      by_cases h'' : k' = k
      · simp [h'']
      · simp [h'', ih]

theorem keysOf_posIncr (d : List (String × Vec3)) (p : String) (i : Nat) :
    keysOf (posIncr d p i) = keysOf d := by
  induction d with
  | nil => simp [posIncr]
  | cons hd tl ih =>
    obtain ⟨k, v⟩ := hd
    by_cases h : k = p
    · subst h
      simp [posIncr, keysOf]
    · simp only [posIncr, if_neg h, keysOf, List.map_cons] at ih ⊢
      rw [ih]

theorem sumVec_bumpVec_le (i : Nat) (v : Vec3) :
    sumVec (bumpVec i v) ≤ sumVec v + 1 := by
  obtain ⟨a, b, c⟩ := v
  simp only [bumpVec]
  split_ifs <;> simp only [sumVec] <;> omega

theorem cntAt_dictIncr_self (d : List (String × Nat)) (p : String) :
    cntAt (dictIncr d p) p = cntAt d p + 1 := by
  simp [cntAt, alookup_dictIncr_self]

theorem cntAt_dictIncr_ne (d : List (String × Nat)) {p k : String} (h : k ≠ p) :
    cntAt (dictIncr d p) k = cntAt d k := by
  simp [cntAt, alookup_dictIncr_ne d h]

theorem vecAt_posEnsure (d : List (String × Vec3)) (p k : String) :
    vecAt (posEnsure d p) k = vecAt d k := by
  by_cases h : k = p
  · subst h
    simp [vecAt, alookup_posEnsure_self]
  · simp [vecAt, alookup_posEnsure_ne d h]

theorem vecAt_posIncr_self_of_isSome (d : List (String × Vec3)) (p : String) (i : Nat)
    (h : (alookup p d).isSome) : vecAt (posIncr d p i) p = bumpVec i (vecAt d p) := by
  obtain ⟨v, hv⟩ := Option.isSome_iff_exists.mp h
  simp [vecAt, alookup_posIncr_self, hv]

theorem vecAt_posIncr_ne (d : List (String × Vec3)) {p k : String} (i : Nat)
    (h : k ≠ p) : vecAt (posIncr d p i) k = vecAt d k := by
  simp [vecAt, alookup_posIncr_ne d i h]

theorem stepSymbol_count (ig : Bool) (nPh i : Nat) (p : String) (s : Stats) :
    (stepSymbol ig nPh i p s).count = dictIncr s.count (effSym ig p) := rfl

theorem stepSymbol_byPos (ig : Bool) (nPh i : Nat) (p : String) (s : Stats) :
    (stepSymbol ig nPh i p s).byPos =
      (if 2 ≤ nPh then
        posIncr (posEnsure s.byPos (effSym ig p)) (effSym ig p) (posIdx nPh i)
       else posEnsure s.byPos (effSym ig p)) := rfl

/-- Position vectors after one symbol step: the counted symbol's vector is
bumped at `posIdx nPh i` when the variant has at least two symbols. -/
theorem vecAt_stepSymbol_self (ig : Bool) {nPh : Nat} (i : Nat) (p : String)
    (s : Stats) (h : 2 ≤ nPh) :
    vecAt (stepSymbol ig nPh i p s).byPos (effSym ig p) =
      bumpVec (posIdx nPh i) (vecAt s.byPos (effSym ig p)) := by
  rw [stepSymbol_byPos, if_pos h,
    vecAt_posIncr_self_of_isSome _ _ _ (by simp [alookup_posEnsure_self]),
    vecAt_posEnsure]

/-- Position vectors after one symbol step: single-symbol (or empty) variants
leave every position vector unchanged. -/
theorem vecAt_stepSymbol_short (ig : Bool) {nPh : Nat} (i : Nat) (p : String)
    (s : Stats) (h : nPh < 2) (k : String) :
    vecAt (stepSymbol ig nPh i p s).byPos k = vecAt s.byPos k := by
  rw [stepSymbol_byPos, if_neg (by omega), vecAt_posEnsure]

theorem vecAt_stepSymbol_ne (ig : Bool) (nPh i : Nat) (p : String) (s : Stats)
    {k : String} (h : k ≠ effSym ig p) :
    vecAt (stepSymbol ig nPh i p s).byPos k = vecAt s.byPos k := by
  rw [stepSymbol_byPos]
  by_cases h2 : 2 ≤ nPh
  · rw [if_pos h2, vecAt_posIncr_ne _ _ h, vecAt_posEnsure]
  · rw [if_neg h2, vecAt_posEnsure]

/-! ### The counting invariant and its preservation -/

/-- Invariant carried through `__get_phoneme_stats`: both dictionaries have
unique keys, the same key set, and every recorded position sum is bounded by
the total count. -/
def StatsInv (s : Stats) : Prop :=
  (keysOf s.count).Nodup ∧ (keysOf s.byPos).Nodup ∧
  (∀ k, k ∈ keysOf s.count ↔ k ∈ keysOf s.byPos) ∧
  (∀ k, sumVec (vecAt s.byPos k) ≤ cntAt s.count k)

theorem stepSymbol_inv (ig : Bool) (nPh i : Nat) (p : String) {s : Stats}
    (h : StatsInv s) : StatsInv (stepSymbol ig nPh i p s) := by
  obtain ⟨h1, h2, h3, h4⟩ := h
  refine ⟨?_, ?_, ?_, ?_⟩
  · rw [stepSymbol_count]
    exact nodup_keys_dictIncr _ h1
  · rw [stepSymbol_byPos]
    by_cases h2' : 2 ≤ nPh
    · rw [if_pos h2', keysOf_posIncr]
      exact nodup_keys_posEnsure _ h2
    · rw [if_neg h2']
      exact nodup_keys_posEnsure _ h2
  · intro k
    rw [stepSymbol_count, stepSymbol_byPos, mem_keys_dictIncr]
    by_cases h2' : 2 ≤ nPh
    · rw [if_pos h2', keysOf_posIncr, mem_keys_posEnsure, h3]
    · rw [if_neg h2', mem_keys_posEnsure, h3]
  · intro k
    by_cases hk : k = effSym ig p
    · subst hk
      rw [stepSymbol_count, cntAt_dictIncr_self]
      by_cases h2' : 2 ≤ nPh
      · rw [vecAt_stepSymbol_self ig _ p s h2']
        exact le_trans (sumVec_bumpVec_le _ _) (by have := h4 (effSym ig p); omega)
      · rw [vecAt_stepSymbol_short ig _ p s (by omega)]
        have := h4 (effSym ig p)
        omega
    · rw [stepSymbol_count, cntAt_dictIncr_ne _ hk, vecAt_stepSymbol_ne _ _ _ _ _ hk]
      exact h4 k

theorem countPhonemes_inv (ig : Bool) (nPh : Nat) :
    ∀ (ps : List String) (i : Nat) {s : Stats}, StatsInv s →
      StatsInv (countPhonemes ig nPh i ps s) := by
  intro ps
  induction ps with
  | nil => intro i s h; exact h
  | cons p rest ih =>
    intro i s h
    exact ih (i + 1) (stepSymbol_inv ig nPh i p h)

theorem foldStats_inv (ig : Bool) (trans : List (Word × List String)) :
    ∀ {s : Stats}, StatsInv s →
      StatsInv (trans.foldl (fun acc wp => stepWord ig wp.2 acc) s) := by
  induction trans with
  | nil => intro s h; exact h
  | cons wp rest ih =>
    intro s h
    exact ih (countPhonemes_inv ig wp.2.length wp.2 0 h)

theorem statsInv_empty : StatsInv ⟨[], []⟩ := by
  refine ⟨by simp [keysOf], by simp [keysOf], by simp [keysOf], ?_⟩
  intro k
  simp [vecAt, cntAt, alookup, sumVec]

/-! ### Sorting transfer -/

theorem insertByKey_perm {α : Type} (x : String × α) (l : List (String × α)) :
    (insertByKey x l).Perm (x :: l) := by
  induction l with
  | nil => exact List.Perm.refl _
  | cons y ys ih =>
    by_cases h : strLt y.1 x.1 = true
    · simp only [insertByKey, if_pos h]
      exact (ih.cons y).trans (List.Perm.swap x y ys)
    · simp only [insertByKey, if_neg h]
      exact List.Perm.refl _

theorem sortByKey_perm {α : Type} (l : List (String × α)) :
    (sortByKey l).Perm l := by
  induction l with
  | nil => exact List.Perm.refl _
  | cons x xs ih =>
    exact (insertByKey_perm x (sortByKey xs)).trans (ih.cons x)

theorem alookup_sortByKey {α : Type} (k : String) (d : List (String × α))
    (h : (keysOf d).Nodup) : alookup k (sortByKey d) = alookup k d := by
  have hnd : (keysOf (sortByKey d)).Nodup :=
    ((sortByKey_perm d).map Prod.fst).nodup_iff.mpr h
  exact alookup_perm k (sortByKey_perm d) hnd

theorem mem_keys_sortByKey {α : Type} (k : String) (d : List (String × α)) :
    k ∈ keysOf (sortByKey d) ↔ k ∈ keysOf d :=
  ((sortByKey_perm d).map Prod.fst).mem_iff

/-- The full invariant holds for the statistics of every transcription. -/
theorem getPhonemeStats_inv (ig : Bool) (trans : List (Word × List String)) :
    StatsInv (getPhonemeStats ig trans) := by
  obtain ⟨h1, h2, h3, h4⟩ := foldStats_inv ig trans statsInv_empty
  refine ⟨?_, ?_, ?_, ?_⟩
  · exact ((sortByKey_perm _).map Prod.fst).nodup_iff.mpr h1
  · exact ((sortByKey_perm _).map Prod.fst).nodup_iff.mpr h2
  · intro k
    rw [show (getPhonemeStats ig trans).count = sortByKey _ from rfl,
      show (getPhonemeStats ig trans).byPos = sortByKey _ from rfl,
      mem_keys_sortByKey, mem_keys_sortByKey]
    exact h3 k
  · intro k
    rw [show (getPhonemeStats ig trans).count = sortByKey _ from rfl,
      show (getPhonemeStats ig trans).byPos = sortByKey _ from rfl]
    unfold cntAt vecAt
    rw [alookup_sortByKey k _ h1, alookup_sortByKey k _ h2]
    exact h4 k

theorem bumpVec_zero (v : Vec3) : bumpVec 0 v = (v.1 + 1, v.2.1, v.2.2) := by
  obtain ⟨a, b, c⟩ := v
  simp [bumpVec]

theorem bumpVec_one (v : Vec3) : bumpVec 1 v = (v.1, v.2.1 + 1, v.2.2) := by
  obtain ⟨a, b, c⟩ := v
  simp [bumpVec]

theorem bumpVec_two (v : Vec3) : bumpVec 2 v = (v.1, v.2.1, v.2.2 + 1) := by
  obtain ⟨a, b, c⟩ := v
  simp [bumpVec]

theorem posIdx_zero (nPh : Nat) : posIdx nPh 0 = 0 := by
  simp [posIdx]

theorem posIdx_final {nPh i : Nat} (h0 : 0 < i) (hl : i = nPh - 1) :
    posIdx nPh i = 2 := by
  unfold posIdx
  rw [if_pos h0, if_pos hl]

theorem posIdx_medial {nPh i : Nat} (h0 : 0 < i) (hl : i ≠ nPh - 1) :
    posIdx nPh i = 1 := by
  unfold posIdx
  rw [if_pos h0, if_neg hl]

/-! ### Claims about the positional frequency counter -/

/-- C1: for every Passage that completes construction (its statistics are
`getPhonemeStats` of its transcription) and every phoneme symbol `k` present
in `PhonemeCount`, the total count `PhonemeCount[k]` is at least the sum of
the three entries of `PositionalPhonemeCount[k]`. -/
theorem C1_count_ge_positional_sum (ig : Bool) (trans : List (Word × List String))
    (k : String) (n : Nat) (v : Vec3)
    (hc : alookup k (getPhonemeStats ig trans).count = some n)
    (hp : alookup k (getPhonemeStats ig trans).byPos = some v) :
    sumVec v ≤ n := by
  have h := (getPhonemeStats_inv ig trans).2.2.2 k
  rw [cntAt, vecAt, hc, hp] at h
  simpa using h

theorem C1_witness : sumVec (0, 0, 2) ≤ 2 :=
  C1_count_ge_positional_sum true
    [(['c', 'a', 't'], ["K", "AE1", "T"]), (['s', 'a', 't'], ["S", "AE1", "T"])]
    "T" 2 (0, 0, 2) (by decide) (by decide)

/-- C2: the positional counter increments a position bucket only when the
variant length is at least 2, classifying index 0 as initial, index `n-1`
(with `0 < i`, so for `n = 2` this is index 1) as final and every other index
as medial; for variants of length 0 or 1 only the total count grows and no
position bucket changes.  Buckets of other symbols are never touched. -/
theorem C2_positional_classification (ig : Bool) (nPh i : Nat) (p : String)
    (s : Stats) (hi : i < nPh) :
    cntAt (stepSymbol ig nPh i p s).count (effSym ig p)
        = cntAt s.count (effSym ig p) + 1 ∧
    (nPh ≤ 1 → ∀ k, vecAt (stepSymbol ig nPh i p s).byPos k = vecAt s.byPos k) ∧
    (2 ≤ nPh → i = 0 →
      vecAt (stepSymbol ig nPh i p s).byPos (effSym ig p)
        = ((vecAt s.byPos (effSym ig p)).1 + 1, (vecAt s.byPos (effSym ig p)).2.1,
           (vecAt s.byPos (effSym ig p)).2.2)) ∧
    (2 ≤ nPh → 0 < i → i = nPh - 1 →
      vecAt (stepSymbol ig nPh i p s).byPos (effSym ig p)
        = ((vecAt s.byPos (effSym ig p)).1, (vecAt s.byPos (effSym ig p)).2.1,
           (vecAt s.byPos (effSym ig p)).2.2 + 1)) ∧
    (2 ≤ nPh → 0 < i → i ≠ nPh - 1 →
      vecAt (stepSymbol ig nPh i p s).byPos (effSym ig p)
        = ((vecAt s.byPos (effSym ig p)).1, (vecAt s.byPos (effSym ig p)).2.1 + 1,
           (vecAt s.byPos (effSym ig p)).2.2)) ∧
    (∀ k, k ≠ effSym ig p →
      vecAt (stepSymbol ig nPh i p s).byPos k = vecAt s.byPos k ∧
      cntAt (stepSymbol ig nPh i p s).count k = cntAt s.count k) := by
  refine ⟨?_, ?_, ?_, ?_, ?_, ?_⟩
  · rw [stepSymbol_count, cntAt_dictIncr_self]
  · intro h k
    exact vecAt_stepSymbol_short ig i p s (by omega) k
  · intro h h0
    subst h0
    rw [vecAt_stepSymbol_self ig 0 p s h, posIdx_zero, bumpVec_zero]
  · intro h h0 hl
    rw [vecAt_stepSymbol_self ig i p s h, posIdx_final h0 hl, bumpVec_two]
  · intro h h0 hl
    rw [vecAt_stepSymbol_self ig i p s h, posIdx_medial h0 hl, bumpVec_one]
  · intro k hk
    exact ⟨vecAt_stepSymbol_ne ig nPh i p s hk, by
      rw [stepSymbol_count, cntAt_dictIncr_ne _ hk]⟩

theorem C2_witness :
    vecAt (stepSymbol true 3 2 "T" ⟨[], []⟩).byPos (effSym true "T") = (0, 0, 1) := by
  have h := (C2_positional_classification true 3 2 "T" ⟨[], []⟩ (by omega)).2.2.2.1
    (by omega) (by omega) (by omega)
  simpa [vecAt, alookup] using h

/-- C9: for every Passage that completes construction, the key set of
`PhonemeCount` equals the key set of `PositionalPhonemeCount`, so the
invariant check's indexing can never miss a key. -/
theorem C9_key_sets_agree (ig : Bool) (trans : List (Word × List String))
    (k : String) :
    (alookup k (getPhonemeStats ig trans).count).isSome =
      (alookup k (getPhonemeStats ig trans).byPos).isSome := by
  have h := (getPhonemeStats_inv ig trans).2.2.1 k
  rw [Bool.eq_iff_iff, alookup_isSome_iff, alookup_isSome_iff]
  exact h

/-- C7: `__check_counts` reports a violation exactly when some phoneme's
summed positional counts exceed its total count, and on the statistics of any
transcription it always succeeds, so Passage construction never fails at the
Validate step. -/
theorem C7_validate_unreachable :
    (∀ (ig : Bool) (trans : List (Word × List String)),
      checkCounts (getPhonemeStats ig trans) = true) ∧
    (∀ s : Stats, checkCounts s = false ↔
      ∃ kv ∈ s.count, kv.2 < sumVec (vecAt s.byPos kv.1)) := by
  constructor
  · intro ig trans
    rw [checkCounts, List.all_eq_true]
    intro kv hkv
    have h4 := (getPhonemeStats_inv ig trans).2.2.2 kv.1
    have h1 := (getPhonemeStats_inv ig trans).1
    have hl : alookup kv.1 (getPhonemeStats ig trans).count = some kv.2 :=
      alookup_eq_some_of_mem h1 (by simpa using hkv)
    rw [cntAt, hl] at h4
    simpa using h4
  · intro s
    rw [checkCounts]
    rw [show (List.all s.count fun kv => decide (sumVec (vecAt s.byPos kv.1) ≤ kv.2)) = false
        ↔ ¬(List.all s.count fun kv => decide (sumVec (vecAt s.byPos kv.1) ≤ kv.2)) = true from
      by simp]
    rw [List.all_eq_true]
    push_neg
    constructor
    · rintro ⟨kv, hkv, hne⟩
      exact ⟨kv, hkv, by simpa [Nat.lt_iff_add_one_le] using hne⟩
    · rintro ⟨kv, hkv, hlt⟩
      exact ⟨kv, hkv, by simp; omega⟩

/-! ### Tokenization and dictionary lookup (`Passage.__to_phonemes`) -/

/-- Python `text.split(' ')`: split at every single space character, keeping
empty tokens, so the empty text yields one empty token (`[[]]`). -/
def splitSpace : List Char → List (List Char)
  | [] => [[]]
  | c :: rest =>
    if c = ' ' then [] :: splitSpace rest
    else
      match splitSpace rest with
      | [] => [[c]]
      | w :: ws => (c :: w) :: ws

/-- The state threaded through `__to_phonemes`: the process-wide
`phoneme_cache`, the passage's `self.oovs`, the transcript built so far, and
— instrumentation for the call-count property in the spec — the log of words
sent to the external dictionary. -/
structure TransState where
  cache : List (Word × List String)
  queries : List Word
  oovs : List Word
  trans : List (Word × List String)
deriving DecidableEq

/-- The body of the `for word in words` loop of `__to_phonemes`.  `dict w`
models `cmudict.dict()[w]`, the external dictionary's ordered list of
pronunciation variants (empty when the word is unknown).  A cache miss
queries the dictionary, keeps only the first variant (an empty list when
there is none, in which case the word is recorded as OOV) and appends the
new entry to the shared cache. -/
def processWord (dict : Word → List (List String)) (st : TransState) (word : Word) :
    TransState :=
  match alookup word st.cache with
  | some phonemes => { st with trans := st.trans ++ [(word, phonemes)] }
  | none =>
    match dict word with
    | v :: _ =>
      { st with
        cache := st.cache ++ [(word, v)],
        queries := st.queries ++ [word],
        trans := st.trans ++ [(word, v)] }
    | [] =>
      { st with
        cache := st.cache ++ [(word, [])],
        queries := st.queries ++ [word],
        oovs := st.oovs ++ [word],
        trans := st.trans ++ [(word, [])] }

/-- `Passage.__to_phonemes`: fold the lookup loop over the tokens of the
text, starting from the shared cache `cache0` and the empty `self.oovs` set
by `__init__`. -/
def toPhonemes (dict : Word → List (List String)) (cache0 : List (Word × List String))
    (text : List Char) : TransState :=
  (splitSpace text).foldl (processWord dict)
    { cache := cache0, queries := [], oovs := [], trans := [] }

theorem alookup_append_single_ne {κ α : Type} [DecidableEq κ] {k t : κ} (x : α)
    (l : List (κ × α)) (h : t ≠ k) : alookup k (l ++ [(t, x)]) = alookup k l := by
  cases hl : alookup k l with
  | none =>
    rw [alookup_append_of_none _ hl]
    simp [alookup, h]
  | some v => rw [alookup_append_of_some _ hl]

theorem processWord_trans_length (dict : Word → List (List String)) (st : TransState)
    (w : Word) : (processWord dict st w).trans.length = st.trans.length + 1 := by
  rw [processWord]
  cases h : alookup w st.cache
  · cases hd : dict w <;> simp
  · simp

/-- How many times `w` ends up in the OOV list after folding the lookup loop
over the tokens `ws`: exactly one more than before when `w` occurs in `ws`,
is not yet cached, and the dictionary has no variants for it. -/
theorem count_oovs_foldl (dict : Word → List (List String)) (w : Word) :
    ∀ (ws : List Word) (st : TransState),
      ((ws.foldl (processWord dict) st).oovs).count w =
        st.oovs.count w +
          (if w ∈ ws ∧ alookup w st.cache = none ∧ dict w = [] then 1 else 0) := by
  intro ws
  induction ws with
  | nil =>
    intro st
    simp
  | cons t ts ih =>
    intro st
    rw [List.foldl_cons, ih]
    by_cases hw : w = t
    · subst hw
      cases h : alookup w st.cache with
      | some v =>
        simp [processWord, h]
      | none =>
        cases hd : dict w with
        | cons v vs =>
          have hc : alookup w (st.cache ++ [(w, v)]) = some v := by
            rw [alookup_append_of_none _ h]
            simp [alookup]
          simp [processWord, h, hd, hc]
        | nil =>
          have hc : alookup w (st.cache ++ [(w, [])]) = some [] := by
            rw [alookup_append_of_none _ h]
            simp [alookup]
          simp [processWord, h, hd, hc, List.count_append]
    · have hmem : w ∈ t :: ts ↔ w ∈ ts := by
        simp [List.mem_cons, hw]
      cases h : alookup t st.cache with
      | some v =>
        simp [processWord, h, hmem]
      | none =>
        have hne : t ≠ w := fun he => hw he.symm
        cases hd : dict t with
        | cons v vs =>
          simp [processWord, h, hd, hmem, alookup_append_single_ne _ _ hne]
        | nil =>
          simp [processWord, h, hd, hmem, alookup_append_single_ne _ _ hne,
            List.count_append, List.count_cons, hw]

/-- C3 as stated fails on the code: Python `''.split(' ')` is `['']`, so the
empty normalized text yields one empty token, hence a one-pair transcription
(`n_words = 1`), and the empty word is recorded as OOV. -/
theorem C3_counterexample :
    ¬(splitSpace [] = ([] : List (List Char)) ∧
      (toPhonemes (fun _ => []) [] []).trans = [] ∧
      (toPhonemes (fun _ => []) [] []).oovs = []) := by
  intro h
  exact absurd h.1 (by decide)

/-- C3 (amended): on the empty normalized text, `split(' ')` yields exactly
one empty token, so the Transcription has exactly one (word, variant) pair
(`n_words = 1`) rather than zero, and the empty word is recorded as OOV when
the shared cache has no entry for it and the dictionary has no variants. -/
theorem C3_empty_text (dict : Word → List (List String))
    (cache0 : List (Word × List String)) :
    splitSpace [] = [[]] ∧
    (toPhonemes dict cache0 []).trans.length = 1 ∧
    (alookup [] cache0 = none → dict [] = [] →
      (toPhonemes dict cache0 []).oovs = [[]]) := by
  refine ⟨rfl, ?_, ?_⟩
  · rw [toPhonemes]
    show (processWord dict _ []).trans.length = 1
    rw [processWord_trans_length]
    rfl
  · intro h hd
    rw [toPhonemes]
    show (processWord dict _ []).oovs = [[]]
    rw [processWord]
    simp [h, hd]

theorem C3_witness :
    splitSpace [] = [[]] ∧
    (toPhonemes (fun _ => []) [] []).trans.length = 1 ∧
    (toPhonemes (fun _ => []) [] []).oovs = [[]] := by
  have h := C3_empty_text (fun _ => []) []
  exact ⟨h.1, h.2.1, h.2.2 rfl rfl⟩

/-- C4 as stated fails on the code: when the shared cache already holds an
empty entry for a word (from an earlier Passage), a new Passage whose text
consists of that word records no OOV at all, not exactly one. -/
theorem C4_counterexample :
    ¬((toPhonemes (fun _ => []) [(['x'], [])] ['x']).oovs.count ['x'] = 1) := by
  decide

/-- C4 (amended): a token is appended to a Passage's OOV list exactly once
when it occurs among the Passage's tokens, the shared cache has no entry for
it, and the dictionary reports no variants; otherwise zero times.  In
particular a repeated missing word is recorded once, but a word whose empty
entry was already cached by an earlier Passage is not recorded again. -/
theorem C4_oov_recorded_once (dict : Word → List (List String))
    (cache0 : List (Word × List String)) (text : List Char) (w : Word) :
    ((toPhonemes dict cache0 text).oovs).count w =
      (if w ∈ splitSpace text ∧ alookup w cache0 = none ∧ dict w = [] then 1
       else 0) := by
  rw [toPhonemes, count_oovs_foldl]
  simp

/-- C5: the first lookup of a word queries the external dictionary, stores
its first variant (or an empty sequence when there is none); any later
lookup of that word — in this or any later Passage — returns the identical
cached result, and the word is never sent to the dictionary again. -/
theorem C5_cache_memoizes (dict : Word → List (List String)) (st : TransState)
    (w : Word) :
    (alookup w st.cache = none →
      processWord dict st w =
        { st with
          cache := st.cache ++ [(w, (dict w).headD [])],
          queries := st.queries ++ [w],
          oovs := if dict w = [] then st.oovs ++ [w] else st.oovs,
          trans := st.trans ++ [(w, (dict w).headD [])] }) ∧
    (∀ v, alookup w st.cache = some v →
      processWord dict st w = { st with trans := st.trans ++ [(w, v)] }) ∧
    (∀ v (ws : List Word), alookup w st.cache = some v →
      alookup w ((ws.foldl (processWord dict) st).cache) = some v ∧
      ((ws.foldl (processWord dict) st).queries).count w = st.queries.count w) := by
  refine ⟨?_, ?_, ?_⟩
  · intro h
    rw [processWord]
    cases hd : dict w with
    | nil => simp [h, hd]
    | cons v vs => simp [h, hd]
  · intro v h
    rw [processWord, h]
  · intro v ws
    induction ws generalizing st with
    | nil =>
      intro h
      exact ⟨h, rfl⟩
    | cons t ts ih =>
      intro h
      rw [List.foldl_cons]
      have hstep : alookup w (processWord dict st t).cache = some v ∧
          ((processWord dict st t).queries).count w = st.queries.count w := by
        rw [processWord]
        cases ht : alookup t st.cache with
        | some u => exact ⟨h, rfl⟩
        | none =>
          have hne : t ≠ w := by
            intro he
            subst he
            rw [h] at ht
            exact Option.noConfusion ht
          cases hd : dict t with
          | nil =>
            refine ⟨alookup_append_of_some _ h, ?_⟩
            simp [List.count_append, List.count_cons, hne]
          | cons u us =>
            refine ⟨alookup_append_of_some _ h, ?_⟩
            simp [List.count_append, List.count_cons, hne]
      obtain ⟨hc, hq⟩ := ih _ hstep.1
      exact ⟨hc, hq.trans hstep.2⟩

theorem C5_witness :
    processWord (fun w => if w = ['a'] then [["AH0"], ["AA1"]] else [])
        { cache := [], queries := [], oovs := [], trans := [] } ['a'] =
      { cache := [(['a'], ["AH0"])], queries := [['a']], oovs := [],
        trans := [(['a'], ["AH0"])] } ∧
    processWord (fun w => if w = ['a'] then [["AH0"], ["AA1"]] else [])
        { cache := [(['a'], ["AH0"])], queries := [], oovs := [], trans := [] } ['a'] =
      { cache := [(['a'], ["AH0"])], queries := [], oovs := [],
        trans := [(['a'], ["AH0"])] } := by
  constructor
  · have h := (C5_cache_memoizes (fun w => if w = ['a'] then [["AH0"], ["AA1"]] else [])
      { cache := [], queries := [], oovs := [], trans := [] } ['a']).1 rfl
    rw [h]
    decide
  · exact (C5_cache_memoizes (fun w => if w = ['a'] then [["AH0"], ["AA1"]] else [])
      { cache := [(['a'], ["AH0"])], queries := [], oovs := [], trans := [] } ['a']).2.1
      ["AH0"] rfl

/-! ### OOV export (`Corpus.export_oovs`) -/

/-- The externally visible effect of one `export_oovs` call: either only an
informational message is printed, or a file is written. -/
inductive ExportAction
  | printInfo (msg : List Char)
  | writeFile (path : List Char) (contents : List Char)
deriving DecidableEq

/-- `'\n'.join(ws)`. -/
def joinLines (ws : List Word) : List Char := List.intercalate ['\n'] ws

/-- `Corpus.export_oovs`: when there are OOV words, write them newline-joined
to `outpath`, defaulting to `<directory>/oovs.txt`; otherwise only print an
informational message and touch no file. -/
def export_oovs (directory : List Char) (oovs : List Word)
    (outpath : Option (List Char)) : ExportAction :=
  if 0 < oovs.length then
    ExportAction.writeFile
      (match outpath with
       | none => directory ++ ('/' :: "oovs.txt".data)
       | some p => p)
      (joinLines oovs)
  else ExportAction.printInfo "No OOV words in the corpus.".data

/-- C8: `export_oovs` on an empty OOV set performs no file write and only
emits an informational message; on a non-empty set it writes the OOV words
newline-joined to the given `outpath`, or to `oovs.txt` inside the corpus
directory when `outpath` is `None`. -/
theorem C8_export_oovs_spec (directory : List Char) (oovs : List Word)
    (outpath : Option (List Char)) :
    (oovs = [] → export_oovs directory oovs outpath
        = ExportAction.printInfo "No OOV words in the corpus.".data) ∧
    (oovs ≠ [] → export_oovs directory oovs outpath
        = ExportAction.writeFile
            (outpath.getD (directory ++ ('/' :: "oovs.txt".data)))
            (List.intercalate ['\n'] oovs)) := by
  constructor
  · intro h
    subst h
    rfl
  · intro h
    have hlen : 0 < oovs.length := List.length_pos.mpr h
    rw [export_oovs.eq_def, if_pos hlen, joinLines]
    cases outpath <;> rfl

theorem C8_witness :
    export_oovs "corpus".data [] none
      = ExportAction.printInfo "No OOV words in the corpus.".data ∧
    export_oovs "corpus".data [['z'], ['q']] none
      = ExportAction.writeFile ("corpus".data ++ ('/' :: "oovs.txt".data))
          (List.intercalate ['\n'] [['z'], ['q']]) :=
  ⟨(C8_export_oovs_spec "corpus".data [] none).1 rfl,
   (C8_export_oovs_spec "corpus".data [['z'], ['q']] none).2 (by decide)⟩

/-! ### Input resolution (`Passage.__read_input_text`) -/

/-- `os.path.basename` for POSIX paths: the part after the last slash. -/
def basename (p : List Char) : List Char :=
  (p.reverse.takeWhile (fun c => !(c = '/'))).reverse

/-- `Passage.__read_input_text`.  The filesystem is modelled as a partial
map from paths to file contents: `fs p = some c` exactly when
`os.path.isfile(p)` holds and the file reads `c`.  Returns the passage text
and the resulting display name. -/
def readInputText (fs : List Char → Option (List Char))
    (name : Option (List Char)) (input : List Char) :
    List Char × Option (List Char) :=
  match fs input with
  | some contents =>
    (contents,
     match name with
     | none => some (basename input)
     | some n => some n)
  | none => (input, name)

/-- C10: the constructor decides raw text vs file path solely by whether a
file exists at the string: any string at which the filesystem has a file is
read from disk (with the display name defaulting to the file's base name
when no explicit name was given), and otherwise the string itself becomes
the text. -/
theorem C10_input_resolved_by_existence (fs : List Char → Option (List Char))
    (name : Option (List Char)) (input : List Char) :
    (∀ contents, fs input = some contents →
      readInputText fs name input
        = (contents,
           match name with
           | none => some (basename input)
           | some n => some n)) ∧
    (fs input = none → readInputText fs name input = (input, name)) := by
  constructor
  · intro c h
    rw [readInputText.eq_def, h]
  · intro h
    rw [readInputText.eq_def, h]

theorem C10_witness :
    readInputText
        (fun p => if p = "note.txt".data then some "hello world".data else none)
        none "note.txt".data
      = ("hello world".data, some "note.txt".data) ∧
    readInputText
        (fun p => if p = "note.txt".data then some "hello world".data else none)
        none "raw text".data
      = ("raw text".data, none) := by
  constructor
  · have h := (C10_input_resolved_by_existence
      (fun p => if p = "note.txt".data then some "hello world".data else none)
      none "note.txt".data).1 "hello world".data (by decide)
    rw [h]
    decide
  · exact (C10_input_resolved_by_existence
      (fun p => if p = "note.txt".data then some "hello world".data else none)
      none "raw text".data).2 (by decide)

/-! ### Text normalization (`Passage.__clean_text`) -/

/-- Python `str.lower`, on the embedding's ASCII alphabet: map ASCII capital
letters (code points 65-90) to the corresponding lowercase letters. -/
def lowerChar (c : Char) : Char :=
  if 65 ≤ c.toNat ∧ c.toNat ≤ 90 then Char.ofNat (c.toNat + 32) else c

/-- `text.replace('\n', ' ')`, per character. -/
def replNewline (c : Char) : Char := if c = '\n' then ' ' else c

/-- `text.replace('’', "'")`, per character: the Unicode right single
quotation mark becomes an ASCII apostrophe. -/
def replQuote (c : Char) : Char := if c = '’' then '\'' else c

/-- Python regex class `\s`, on the ASCII alphabet: space, tab, newline,
carriage return, vertical tab (11), form feed (12). -/
def isPySpace (c : Char) : Bool :=
  c = ' ' || c = '\t' || c = '\n' || c = '\r' || c.toNat = 11 || c.toNat = 12

/-- Python regex class `\w`, on the ASCII alphabet: letters, digits and the
underscore. -/
def isWordChar (c : Char) : Bool := c.isAlphanum || c = '_'

/-- A character surviving the removal `re.sub(r"[^\w\s']", '', ·)`. -/
def keepChar (c : Char) : Bool := isWordChar c || isPySpace c || c = '\''

/-- `re.sub(r'\s+', ' ', ·)`: replace each maximal whitespace run by one
space.  The Boolean records whether the previous character was whitespace
(i.e. whether we are inside a run that already emitted its space). -/
def collapseAux : Bool → List Char → List Char
  | _, [] => []
  | true, c :: rest =>
    if isPySpace c then collapseAux true rest
    else c :: collapseAux false rest
  | false, c :: rest =>
    if isPySpace c then ' ' :: collapseAux true rest
    else c :: collapseAux false rest

/-- The right half of `str.strip()`: drop trailing whitespace. -/
def rstripSpaces (l : List Char) : List Char :=
  (l.reverse.dropWhile isPySpace).reverse

/-- `str.strip()`: drop leading and trailing whitespace. -/
def pyStrip (l : List Char) : List Char :=
  rstripSpaces (l.dropWhile isPySpace)

/-- `Passage.__clean_text`: lowercase; newlines to spaces; the right single
quotation mark to an apostrophe; remove every character that is not a word
character, whitespace or apostrophe; collapse whitespace runs to single
spaces; strip. -/
def cleanText (s : List Char) : List Char :=
  pyStrip (collapseAux false
    ((((s.map lowerChar).map replNewline).map replQuote).filter keepChar))

theorem toNat_charOfNat (n : Nat) (h : n < 55296) : (Char.ofNat n).toNat = n := by
  unfold Char.ofNat
  rw [dif_pos (Or.inl h : Nat.isValidChar n)]
  rfl

theorem lowerChar_toNat_not_upper (c : Char) :
    ¬(65 ≤ (lowerChar c).toNat ∧ (lowerChar c).toNat ≤ 90) := by
  unfold lowerChar
  by_cases h : 65 ≤ c.toNat ∧ c.toNat ≤ 90
  · rw [if_pos h, toNat_charOfNat _ (by omega)]
    omega
  · rw [if_neg h]
    exact h

theorem lowerChar_idem (c : Char) : lowerChar (lowerChar c) = lowerChar c := by
  have h := lowerChar_toNat_not_upper c
  conv_lhs => rw [lowerChar.eq_def]
  rw [if_neg h]

/-- The characters produced by the lower/newline/quote passes are fixed by a
second lowercasing. -/
theorem lowerChar_fixes_chain (a : Char) :
    lowerChar (replQuote (replNewline (lowerChar a)))
      = replQuote (replNewline (lowerChar a)) := by
  by_cases h1 : lowerChar a = '\n'
  · rw [h1]
    decide
  · simp only [replNewline, if_neg h1]
    by_cases h2 : lowerChar a = '’'
    · rw [h2]
      decide
    · simp only [replQuote, if_neg h2]
      exact lowerChar_idem a

/-- The collapse pass emits only single spaces and non-whitespace input
characters. -/
theorem mem_collapseAux : ∀ (l : List Char) (b : Bool) (c : Char),
    c ∈ collapseAux b l → c = ' ' ∨ (c ∈ l ∧ isPySpace c = false) := by
  intro l
  induction l with
  | nil =>
    intro b c h
    cases b <;> simp [collapseAux] at h
  | cons d rest ih =>
    intro b c h
    by_cases hd : isPySpace d = true
    · have hrec : c ∈ collapseAux true rest ∨ c = ' ' := by
        cases b with
        | true =>
          rw [collapseAux, if_pos hd] at h
          exact Or.inl h
        | false =>
          rw [collapseAux, if_pos hd] at h
          rcases List.mem_cons.mp h with h' | h'
          · exact Or.inr h'
          · exact Or.inl h'
      rcases hrec with h' | h'
      · rcases ih true c h' with h'' | ⟨hm, hs⟩
        · exact Or.inl h''
        · exact Or.inr ⟨List.mem_cons_of_mem _ hm, hs⟩
      · exact Or.inl h'
    · have hd' : isPySpace d = false := by simpa using hd
      have h' : c ∈ d :: collapseAux false rest := by
        cases b with
        | true => rwa [collapseAux, if_neg hd] at h
        | false => rwa [collapseAux, if_neg hd] at h
      rcases List.mem_cons.mp h' with h'' | h''
      · subst h''
        exact Or.inr ⟨List.mem_cons_self _ _, hd'⟩
      · rcases ih false c h'' with h3 | ⟨hm, hs⟩
        · exact Or.inl h3
        · exact Or.inr ⟨List.mem_cons_of_mem _ hm, hs⟩

/-- After a space was just emitted, the collapse pass never emits another
space first: the head of `collapseAux true l` is not whitespace. -/
theorem collapseAux_true_head : ∀ (l : List Char) (c : Char) (cs : List Char),
    collapseAux true l = c :: cs → isPySpace c = false := by
  intro l
  induction l with
  | nil =>
    intro c cs h
    simp [collapseAux] at h
  | cons d rest ih =>
    intro c cs h
    by_cases hd : isPySpace d = true
    · rw [collapseAux, if_pos hd] at h
      exact ih c cs h
    · rw [collapseAux, if_neg hd] at h
      injection h with h1 h2
      subst h1
      simpa using hd

/-- Adjacent characters are never both whitespace. -/
def okPair (a b : Char) : Prop := isPySpace a = false ∨ isPySpace b = false

theorem chain_collapseAux : ∀ (l : List Char) (b : Bool),
    List.Chain' okPair (collapseAux b l) := by
  intro l
  induction l with
  | nil =>
    intro b
    cases b <;> simp [collapseAux]
  | cons d rest ih =>
    intro b
    by_cases hd : isPySpace d = true
    · cases b with
      | true =>
        rw [collapseAux, if_pos hd]
        exact ih true
      | false =>
        rw [collapseAux, if_pos hd]
        rw [List.chain'_cons']
        refine ⟨?_, ih true⟩
        intro y hy
        cases hc : collapseAux true rest with
        | nil => rw [hc] at hy; simp at hy
        | cons e es =>
          rw [hc] at hy
          simp only [List.head?_cons, Option.mem_def, Option.some.injEq] at hy
          subst hy
          exact Or.inr (collapseAux_true_head rest e es hc)
    · have hgoal : List.Chain' okPair (d :: collapseAux false rest) := by
        rw [List.chain'_cons']
        refine ⟨?_, ih false⟩
        intro y hy
        exact Or.inl (by simpa using hd)
      cases b with
      | true => rw [collapseAux, if_neg hd]; exact hgoal
      | false => rw [collapseAux, if_neg hd]; exact hgoal

theorem chain_okPair_reverse {l : List Char} (h : List.Chain' okPair l) :
    List.Chain' okPair l.reverse := by
  rw [List.chain'_reverse]
  exact h.imp fun a b hab => hab.symm

theorem chain'_dropWhile (p : Char → Bool) :
    ∀ l : List Char, List.Chain' okPair l → List.Chain' okPair (l.dropWhile p) := by
  intro l
  induction l with
  | nil => intro h; simpa using h
  | cons c rest ih =>
    intro h
    rw [List.dropWhile_cons]
    by_cases hc : p c = true
    · rw [if_pos hc]
      exact ih (List.chain'_cons'.mp h).2
    · rw [if_neg hc]
      exact h

/-- The collapse pass fixes any list whose whitespace characters are all
single spaces with no two adjacent. -/
theorem collapseAux_fix : ∀ l : List Char,
    (∀ c ∈ l, isPySpace c = true → c = ' ') → List.Chain' okPair l →
    collapseAux false l = l := by
  intro l
  induction l with
  | nil => intro _ _; rfl
  | cons d rest ih =>
    intro hsp hch
    have htl : List.Chain' okPair rest := (List.chain'_cons'.mp hch).2
    have hsp' : ∀ c ∈ rest, isPySpace c = true → c = ' ' :=
      fun c hc => hsp c (List.mem_cons_of_mem _ hc)
    by_cases hd : isPySpace d = true
    · have hd' : d = ' ' := hsp d (List.mem_cons_self _ _) hd
      subst hd'
      rw [collapseAux, if_pos hd]
      congr 1
      cases rest with
      | nil => rfl
      | cons e es =>
        have he : isPySpace e = false := by
          rcases (List.chain'_cons.mp hch).1 with h1 | h1
          · rw [hd] at h1
            exact absurd h1 (by simp)
          · exact h1
        rw [collapseAux, if_neg (by simp [he])]
        have h2 : collapseAux false (e :: es) = e :: collapseAux false es := by
          rw [collapseAux, if_neg (by simp [he])]
        rw [← h2]
        exact ih hsp' htl
    · rw [collapseAux, if_neg hd]
      rw [ih hsp' htl]

/-- The head of the list is not whitespace (trivially true of the empty
list). -/
def headNotSpace : List Char → Prop
  | [] => True
  | c :: _ => isPySpace c = false

theorem dropWhile_headNotSpace : ∀ l : List Char,
    headNotSpace (l.dropWhile isPySpace) := by
  intro l
  induction l with
  | nil => trivial
  | cons c rest ih =>
    rw [List.dropWhile_cons]
    by_cases hc : isPySpace c = true
    · rw [if_pos hc]
      exact ih
    · rw [if_neg hc]
      simpa using hc

theorem dropWhile_eq_self_of_headNotSpace {l : List Char} (h : headNotSpace l) :
    l.dropWhile isPySpace = l := by
  cases l with
  | nil => rfl
  | cons c rest =>
    rw [List.dropWhile_cons, if_neg (by simp [show isPySpace c = false from h])]

theorem dropWhile_space_idem (l : List Char) :
    (l.dropWhile isPySpace).dropWhile isPySpace = l.dropWhile isPySpace :=
  dropWhile_eq_self_of_headNotSpace (dropWhile_headNotSpace l)

theorem dropWhile_append_last {c : Char} (hc : isPySpace c = false) :
    ∀ a : List Char, (a ++ [c]).dropWhile isPySpace
      = a.dropWhile isPySpace ++ [c] := by
  intro a
  induction a with
  | nil => simp [List.dropWhile_cons, hc]
  | cons x a' ih =>
    rw [List.cons_append, List.dropWhile_cons, List.dropWhile_cons]
    by_cases hx : isPySpace x = true
    · rw [if_pos hx, if_pos hx, ih]
    · rw [if_neg hx, if_neg hx, List.cons_append]

theorem rstrip_headNotSpace {u : List Char} (h : headNotSpace u) :
    headNotSpace (rstripSpaces u) := by
  cases u with
  | nil => trivial
  | cons c t =>
    have hc : isPySpace c = false := h
    rw [rstripSpaces, List.reverse_cons, dropWhile_append_last hc]
    rw [List.reverse_append]
    simpa using hc

theorem rstrip_idem (u : List Char) :
    rstripSpaces (rstripSpaces u) = rstripSpaces u := by
  unfold rstripSpaces
  rw [List.reverse_reverse, dropWhile_space_idem]

theorem pyStrip_idem (v : List Char) : pyStrip (pyStrip v) = pyStrip v := by
  unfold pyStrip
  rw [dropWhile_eq_self_of_headNotSpace
    (rstrip_headNotSpace (dropWhile_headNotSpace v)), rstrip_idem]

theorem mem_of_mem_dropWhile {c : Char} {p : Char → Bool} :
    ∀ l : List Char, c ∈ l.dropWhile p → c ∈ l := by
  intro l
  induction l with
  | nil => intro h; simpa using h
  | cons d rest ih =>
    intro h
    rw [List.dropWhile_cons] at h
    by_cases hd : p d = true
    · rw [if_pos hd] at h
      exact List.mem_cons_of_mem _ (ih h)
    · rw [if_neg hd] at h
      exact h

theorem mem_of_mem_pyStrip {c : Char} {l : List Char} (h : c ∈ pyStrip l) :
    c ∈ l := by
  rw [pyStrip, rstripSpaces, List.mem_reverse] at h
  have h1 := mem_of_mem_dropWhile _ h
  rw [List.mem_reverse] at h1
  exact mem_of_mem_dropWhile _ h1

theorem chain_pyStrip {l : List Char} (h : List.Chain' okPair l) :
    List.Chain' okPair (pyStrip l) := by
  rw [pyStrip, rstripSpaces]
  exact chain_okPair_reverse
    (chain'_dropWhile _ _ (chain_okPair_reverse (chain'_dropWhile _ _ h)))

theorem map_fix {f : Char → Char} : ∀ l : List Char,
    (∀ c ∈ l, f c = c) → l.map f = l := by
  intro l
  induction l with
  | nil => intro _; rfl
  | cons c rest ih =>
    intro h
    rw [List.map_cons, h c (List.mem_cons_self _ _),
      ih fun d hd => h d (List.mem_cons_of_mem _ hd)]

theorem filter_fix {p : Char → Bool} : ∀ l : List Char,
    (∀ c ∈ l, p c = true) → l.filter p = l := by
  intro l
  induction l with
  | nil => intro _; rfl
  | cons c rest ih =>
    intro h
    rw [List.filter_cons, if_pos (h c (List.mem_cons_self _ _)),
      ih fun d hd => h d (List.mem_cons_of_mem _ hd)]

/-- Every character of a normalized text is either a single space or a kept
non-whitespace character, and is already lowercase. -/
theorem cleanText_mem (x : List Char) :
    ∀ c ∈ cleanText x,
      (c = ' ' ∨ (keepChar c = true ∧ isPySpace c = false)) ∧ lowerChar c = c := by
  intro c hc
  rw [cleanText] at hc
  have hc1 := mem_of_mem_pyStrip hc
  rcases mem_collapseAux _ false c hc1 with rfl | ⟨hmem, hns⟩
  · exact ⟨Or.inl rfl, by decide⟩
  · have hk : keepChar c = true := List.of_mem_filter hmem
    have hmem' := List.mem_of_mem_filter hmem
    rw [List.mem_map] at hmem'
    obtain ⟨b, hb, rfl⟩ := hmem'
    rw [List.mem_map] at hb
    obtain ⟨b', hb', rfl⟩ := hb
    rw [List.mem_map] at hb'
    obtain ⟨a, ha, rfl⟩ := hb'
    exact ⟨Or.inr ⟨hk, hns⟩, lowerChar_fixes_chain a⟩

/-- C6: `__clean_text` is idempotent: normalizing an already normalized text
changes nothing. -/
theorem C6_cleanText_idempotent (x : List Char) :
    cleanText (cleanText x) = cleanText x := by
  set y := cleanText x with hy
  have hmem := cleanText_mem x
  have hch : List.Chain' okPair y := by
    rw [hy, cleanText]
    exact chain_pyStrip (chain_collapseAux _ false)
  have h1 : y.map lowerChar = y := map_fix _ fun c hc => (hmem c hc).2
  have h2 : y.map replNewline = y := by
    refine map_fix _ fun c hc => ?_
    rcases (hmem c hc).1 with rfl | ⟨hk, hns⟩
    · decide
    · rw [replNewline, if_neg]
      intro he
      rw [he] at hns
      exact absurd hns (by decide)
  have h3 : y.map replQuote = y := by
    refine map_fix _ fun c hc => ?_
    rcases (hmem c hc).1 with rfl | ⟨hk, hns⟩
    · decide
    · rw [replQuote, if_neg]
      intro he
      rw [he] at hk
      exact absurd hk (by decide)
  have h4 : y.filter keepChar = y := by
    refine filter_fix _ fun c hc => ?_
    rcases (hmem c hc).1 with rfl | ⟨hk, hns⟩
    · decide
    · exact hk
  have h5 : collapseAux false y = y := by
    refine collapseAux_fix y (fun c hc hs => ?_) hch
    rcases (hmem c hc).1 with rfl | ⟨hk, hns⟩
    · rfl
    · rw [hs] at hns
      exact absurd hns (by simp)
  have h6 : pyStrip y = y := by
    rw [hy, cleanText]
    exact pyStrip_idem _
  calc cleanText y
      = pyStrip (collapseAux false
          ((((y.map lowerChar).map replNewline).map replQuote).filter keepChar)) := rfl
    _ = y := by rw [h1, h2, h3, h4, h5, h6]

end PhonemeAnalysis
